import Mathlib

/-!
Verification of the interactive hunk-selection engine (a Go reimplementation of
the machinery behind `git add -p`).

The shallow embedding below translates the relevant functions of the source:

* `internal/git/patch.go`: the `Hunk` model, `splitHunkInternal`, `SplitHunk`,
  `HunkSplittable`, `updateHunkHeader`, `parseHunkHeader`.
* the `ui` package decision loop (`patchUpdateFile`, `buildOtherOptions`,
  `autoSplitAllHunks`, `hunkMatchesRegex`, `filterHunksByRegex`,
  `reassemblePatch`) and the bulk-mode `acceptAllHunksInFile`.

Go strings are embedded as `List Char`; Go `int` as `Int` (counts and line
numbers never approach machine bounds).  The `Display` (color) and `OfsDelta`
fields of `Hunk` are pure presentation data used by no claim and are omitted;
`Dirty` is likewise omitted.  The Go regexp engine is an external library from
the point of view of this code base, so it is embedded as an abstract
compilation function `compile : List Char → Option (List Char → Bool)`
(`none` models a pattern that fails to compile, `some m` a compiled matcher).
-/

abbrev Line := List Char

def spCh : Char := Char.ofNat 32

def nlCh : Char := Char.ofNat 10

def bsCh : Char := Char.ofNat 92

/-- Embeds Go `strings.HasPrefix s pre`. -/
def startsWith : Line → Line → Bool
  | _, [] => true
  | [], _ :: _ => false
  | c :: cs, p :: ps => c == p && startsWith cs ps

inductive HunkType where
  | header
  | hunk
  | mode
  | deletion
  | addition
deriving DecidableEq

/-- The `Hunk` record of `internal/git/patch.go` (field `Type` is renamed
`kind` because `Type` is reserved in Lean; `Display`, `Dirty`, `OfsDelta`
omitted, see the module comment). -/
structure Hunk where
  Text : List Line
  kind : HunkType
  Use : Option Bool
  OldLine : Int
  NewLine : Int
  OldCnt : Int
  NewCnt : Int
deriving DecidableEq

instance : Inhabited Hunk :=
  ⟨⟨[], HunkType.hunk, none, 0, 0, 0, 0⟩⟩

/-- Contribution of one body line to the old-side count: the
` `/`-`/`+` if-chain of the tally loops in `splitHunkInternal`. -/
def lineOldInc (l : Line) : Int :=
  if startsWith l [spCh] then 1
  else if startsWith l ['-'] then 1
  else 0

/-- Contribution of one body line to the new-side count. -/
def lineNewInc (l : Line) : Int :=
  if startsWith l [spCh] then 1
  else if startsWith l ['-'] then 0
  else if startsWith l ['+'] then 1
  else 0

def oldCntOf (ls : List Line) : Int :=
  (ls.map lineOldInc).sum

def newCntOf (ls : List Line) : Int :=
  (ls.map lineNewInc).sum

def isChange (l : Line) : Bool :=
  startsWith l ['+'] || startsWith l ['-']

/-- The inner look-ahead loop of `splitHunkInternal`: does any later line
start with `+` or `-`? -/
def hasMoreChanges (ls : List Line) : Bool :=
  ls.any isChange

/-- The split-point search loop of `splitHunkInternal` (`i` starts at 1,
`addDel` starts false): skip `\` lines; on a context line after a `+`/`-`
line, succeed if more changes follow; a `+`/`-` line sets `addDel`. -/
def findSplit : List Line → Bool → Nat → Option Nat
  | [], _, _ => none
  | l :: rest, addDel, idx =>
    if startsWith l [bsCh] then findSplit rest addDel (idx + 1)
    else if startsWith l [spCh] then
      if addDel && hasMoreChanges rest then some idx
      else findSplit rest addDel (idx + 1)
    else if startsWith l ['+'] || startsWith l ['-'] then
      findSplit rest true (idx + 1)
    else findSplit rest addDel (idx + 1)

def digitChar : Nat → Char
  | 0 => '0'
  | 1 => '1'
  | 2 => '2'
  | 3 => '3'
  | 4 => '4'
  | 5 => '5'
  | 6 => '6'
  | 7 => '7'
  | 8 => '8'
  | 9 => '9'
  | _ => '*'

def charVal (c : Char) : Nat :=
  c.toNat - 48

def isDigitCh (c : Char) : Bool :=
  48 ≤ c.toNat && c.toNat ≤ 57

/-- Decimal digits of `n`, most significant first (`fuel` bounds the
recursion; any `fuel ≥ n` gives the digits of `n`). -/
def natToStrAux : Nat → Nat → List Char
  | 0, _ => []
  | fuel + 1, n =>
    if n = 0 then []
    else natToStrAux fuel (n / 10) ++ [digitChar (n % 10)]

/-- Embeds Go `fmt.Sprintf` `%d` for a natural number. -/
def natToStr (n : Nat) : List Char :=
  if n = 0 then ['0'] else natToStrAux n n

/-- Embeds Go `fmt.Sprintf` `%d` for an `int`. -/
def intToStr (i : Int) : List Char :=
  if i < 0 then '-' :: natToStr i.natAbs else natToStr i.toNat

/-- The header text built by `updateHunkHeader`: `@@ -o[,oc] +n[,nc] @@`,
each `,count` omitted exactly when that count equals 1. -/
def updateHunkHeaderLine (oldLine oldCnt newLine newCnt : Int) : Line :=
  ['@', '@', spCh, '-'] ++ intToStr oldLine
    ++ (if oldCnt ≠ 1 then ',' :: intToStr oldCnt else [])
    ++ [spCh, '+'] ++ intToStr newLine
    ++ (if newCnt ≠ 1 then ',' :: intToStr newCnt else [])
    ++ [spCh, '@', '@']

/-- `updateHunkHeader`: prepend (not replace) the freshly computed header. -/
def updateHunkHeader (h : Hunk) : Hunk :=
  { h with Text := updateHunkHeaderLine h.OldLine h.OldCnt h.NewLine h.NewCnt :: h.Text }

/-- Split 1 of `splitHunkInternal`: body lines `1 .. p` of the original,
original start lines, recomputed counts, fresh header. -/
def mkSplit1 (h : Hunk) (p : Nat) : Hunk :=
  updateHunkHeader
    { Text := (h.Text.drop 1).take p
      kind := HunkType.hunk
      Use := none
      OldLine := h.OldLine
      NewLine := h.NewLine
      OldCnt := oldCntOf ((h.Text.drop 1).take p)
      NewCnt := newCntOf ((h.Text.drop 1).take p) }

/-- Split 2 of `splitHunkInternal`: lines `p ..` (the split context line is
shared), starts shifted by split 1's counts minus the shared line. -/
def mkSplit2 (h : Hunk) (p : Nat) : Hunk :=
  updateHunkHeader
    { Text := h.Text.drop p
      kind := HunkType.hunk
      Use := none
      OldLine := h.OldLine + oldCntOf ((h.Text.drop 1).take p) - 1
      NewLine := h.NewLine + newCntOf ((h.Text.drop 1).take p) - 1
      OldCnt := oldCntOf (h.Text.drop p)
      NewCnt := newCntOf (h.Text.drop p) }

/-- `splitHunkInternal` of `internal/git/patch.go`. -/
def splitHunkInternal (h : Hunk) : List Hunk :=
  if h.kind ≠ HunkType.hunk then [h]
  else
    match findSplit (h.Text.drop 1) false 1 with
    | none => [h]
    | some p => [mkSplit1 h p, mkSplit2 h p]

def SplitHunk (h : Hunk) : List Hunk :=
  splitHunkInternal h

def HunkSplittable (h : Hunk) : Bool :=
  if h.kind ≠ HunkType.hunk then false
  else (splitHunkInternal h).length > 1

/-- Claim-level description of a valid split index, relative to the hunk body
(the lines after the header): a context line that has a `+`/`-` line somewhere
before it in the body and a `+`/`-` line somewhere after it. -/
def validSplitIdx (body : List Line) (r : Nat) : Bool :=
  decide (r < body.length) && startsWith (body.getD r []) [spCh]
    && (body.take r).any isChange && (body.drop (r + 1)).any isChange

/-- Maximal run of decimal digits at the front of the string (the greedy
matching of a `\d+` group in the header regex). -/
def takeDigits : List Char → List Char × List Char
  | [] => ([], [])
  | c :: cs =>
    if isDigitCh c then
      let r := takeDigits cs
      (c :: r.1, r.2)
    else ([], c :: cs)

def digitsVal (ds : List Char) : Nat :=
  ds.foldl (fun a c => 10 * a + charVal c) 0

/-- Consume the literal `lit` at the front of `s`, or fail. -/
def expectLit (s lit : List Char) : Option (List Char) :=
  match lit, s with
  | [], rest => some rest
  | _ :: _, [] => none
  | p :: ps, c :: cs => if c == p then expectLit cs ps else none

/-- One `(\d+)` group of the header regex. -/
def parseNatTok (s : List Char) : Option (Nat × List Char) :=
  match takeDigits s with
  | ([], _) => none
  | (ds, rest) => some (digitsVal ds, rest)

/-- One optional `(?:,(\d+))?` group; a missing count parses as 1
(`parseHunkHeader` defaults `oldCnt`/`newCnt` to 1). -/
def parseOptCountTok (s : List Char) : Option (Nat × List Char) :=
  match s with
  | c :: rest => if c == ',' then parseNatTok rest else some (1, s)
  | [] => some (1, [])

/-- `parseHunkHeader` of `internal/git/patch.go`: match
`^@@ -(\d+)(?:,(\d+))? \+(\d+)(?:,(\d+))? @@` against the first line and
return `(OldLine, OldCnt, NewLine, NewCnt)`; text after the closing `@@` is
ignored. -/
def parseHunkHeaderLine (l : Line) : Option (Int × Int × Int × Int) :=
  match expectLit l ['@', '@', spCh, '-'] with
  | none => none
  | some s1 =>
    match parseNatTok s1 with
    | none => none
    | some (o, r1) =>
      match parseOptCountTok r1 with
      | none => none
      | some (oc, r2) =>
        match expectLit r2 [spCh, '+'] with
        | none => none
        | some s2 =>
          match parseNatTok s2 with
          | none => none
          | some (n, r3) =>
            match parseOptCountTok r3 with
            | none => none
            | some (nc, r4) =>
              match expectLit r4 [spCh, '@', '@'] with
              | none => none
              | some _ => some ((o : Int), (oc : Int), (n : Int), (nc : Int))

/-- `hunkMatchesRegex` of the ui package, with the Go regexp engine embedded
as the abstract `compile` (`none` = pattern does not compile). -/
def hunkMatchesRegex (compile : List Char → Option (Line → Bool))
    (h : Hunk) (pat : List Char) : Bool :=
  match compile pat with
  | none => false
  | some m => h.Text.any m

/-- `filterHunksByRegex` of the ui package: an invalid pattern yields `nil`
(reported as a diagnostic, not an error). -/
def filterHunksByRegex (compile : List Char → Option (Line → Bool))
    (hunks : List Hunk) (pat : List Char) : List Hunk :=
  match compile pat with
  | none => []
  | some _ => hunks.filter (fun h => hunkMatchesRegex compile h pat)

/-- One pass of the inner loop of `autoSplitAllHunks`: split every currently
splittable hunk once, and report whether any split happened. -/
def onePass : List Hunk → List Hunk × Bool
  | [] => ([], false)
  | h :: t =>
    let rest := onePass t
    if HunkSplittable h then
      let splits := SplitHunk h
      if splits.length > 1 then (splits ++ rest.1, true)
      else (h :: rest.1, rest.2)
    else (h :: rest.1, rest.2)

/-- The `for {}` loop of `autoSplitAllHunks`: repeat `onePass`, incrementing
`rounds`, until a pass makes no split or the counter passes the ceiling of 10.
The loop body guarantees at most `11 - rounds` further iterations, so any
`fuel ≥ 11 - rounds` realizes the unbounded Go loop (`splitLoop_fuel` below
proves this fuel-independence). -/
def splitLoop : Nat → List Hunk → Nat → List Hunk × Nat
  | 0, current, rounds => (current, rounds)
  | fuel + 1, current, rounds =>
    let pass := onePass current
    let rounds1 := rounds + 1
    if !pass.2 || rounds1 > 10 then (pass.1, rounds1)
    else splitLoop fuel pass.1 rounds1

/-- `autoSplitAllHunks` of the ui package. -/
def autoSplitAllHunks : List Hunk → List Hunk
  | [] => []
  | h :: t =>
    (if HunkSplittable h then (splitLoop 11 [h] 0).1 else [h]) ++ autoSplitAllHunks t

/-- A `+++`/`---` line of the file header. -/
def isMarkerLine (l : Line) : Bool :=
  startsWith l ['+', '+', '+'] || startsWith l ['-', '-', '-']

/-- The second loop of `reassemblePatch`: before the first `Change`-kind hunk
(and only there) insert the header's `---`/`+++` lines, then copy each hunk's
lines. -/
def reassembleCollect (headerLines : List Line) : List Hunk → Bool → List Line
  | [], _ => []
  | h :: t, headerAdded =>
    if h.kind == HunkType.hunk && !headerAdded then
      headerLines.filter isMarkerLine ++ h.Text ++ reassembleCollect headerLines t true
    else
      h.Text ++ reassembleCollect headerLines t headerAdded

/-- The line list assembled by `reassemblePatch`: first every header line that
is not a `+++`/`---` line, then the hunks via `reassembleCollect`. -/
def reassembleLines : List Hunk → List Line
  | [] => []
  | header :: rest =>
    header.Text.filter (fun l => !isMarkerLine l) ++ reassembleCollect header.Text rest false

/-- Go `strings.Join lines "\n"`. -/
def joinNL : List Line → List Char
  | [] => []
  | [l] => l
  | l :: t => l ++ nlCh :: joinNL t

/-- `reassemblePatch` of the ui package: joined lines plus one final newline. -/
def reassemblePatch (hunks : List Hunk) : List Char :=
  joinNL (reassembleLines hunks) ++ [nlCh]

def allTextLines : List Hunk → List Line
  | [] => []
  | h :: t => h.Text ++ allTextLines t

/-- Modelled from the claim text for comparison with `reassembleLines`: header
lines without `+++`/`---`, then the hunks before the first `Change`-kind hunk,
then (once) the `---`/`+++` header lines, then the remaining hunks in order. -/
def reassembleSpecLines (header : Hunk) (rest : List Hunk) : List Line :=
  let strip := header.Text.filter (fun l => !isMarkerLine l)
  let markers := header.Text.filter isMarkerLine
  if rest.any (fun h => h.kind == HunkType.hunk) then
    strip ++ allTextLines (rest.takeWhile (fun h => h.kind != HunkType.hunk))
      ++ markers ++ allTextLines (rest.dropWhile (fun h => h.kind != HunkType.hunk))
  else
    strip ++ allTextLines rest

/-- A line as produced by the diff scanner: nonempty and newline-free. -/
def cleanLine (l : Line) : Bool :=
  !l.isEmpty && !l.contains nlCh

/-- The byte string ends with exactly one trailing newline. -/
def endsOneNl (s : List Char) : Bool :=
  match s.reverse with
  | [] => false
  | c :: rest =>
    c == nlCh &&
      (match rest with
       | [] => true
       | d :: _ => d != nlCh)

/-- The per-file preprocessing shared by `patchUpdateFile` and
`acceptAllHunksInFile`: auto-split first (when enabled), then the global
filter; an empty filter result means the file is skipped (`none`). -/
def preprocessFileHunks (compile : List Char → Option (Line → Bool))
    (autoSplit : Bool) (gfilter : List Char) (actual : List Hunk) : Option (List Hunk) :=
  let split := if autoSplit then autoSplitAllHunks actual else actual
  if gfilter.isEmpty then some split
  else
    let filtered := filterHunksByRegex compile split gfilter
    if filtered.isEmpty then none else some filtered

/-- `acceptAllHunksInFile` (bulk accept-all mode): preprocess, accept every
surviving hunk, reassemble and apply when anything remains.  The result is
`none` when nothing is applied, otherwise the accepted working list together
with the applied patch bytes. -/
def acceptAllHunksInFile (compile : List Char → Option (Line → Bool))
    (autoSplit : Bool) (gfilter : List Char) (hunks : List Hunk) :
    Option (List Hunk × List Char) :=
  match hunks with
  | [] => none
  | header :: actual =>
    if actual.isEmpty then none
    else
      match preprocessFileHunks compile autoSplit gfilter actual with
      | none => none
      | some work =>
        let accepted := work.map (fun h => { h with Use := some true })
        let selected := header :: accepted.filter (fun h => h.Use == some true)
        if selected.length > 1 then some (accepted, reassemblePatch selected) else none

/-- The non-empty-pattern arm of the `G` command (`patchUpdateFile`): set the
global filter, then replace the working list and reset the cursor only when
the filtered list is non-empty; otherwise report no-match (flag `false`) and
leave list and cursor alone.  Result: (global filter, working list, cursor,
replaced?). -/
def gFilterSet (compile : List Char → Option (Line → Bool))
    (hunks : List Hunk) (ix : Nat) (pat : List Char) :
    List Char × List Hunk × Nat × Bool :=
  let filtered := filterHunksByRegex compile hunks pat
  if filtered.length = 0 then (pat, hunks, ix, false)
  else (pat, filtered, 0, true)

def toUpperAscii (c : Char) : Char :=
  if 97 ≤ c.toNat && c.toNat ≤ 122 then Char.ofNat (c.toNat - 32) else c

def toLowerAscii (c : Char) : Char :=
  if 65 ≤ c.toNat && c.toNat ≤ 90 then Char.ofNat (c.toNat + 32) else c

/-- The branch condition inside `case 'g'` of `patchUpdateFile`:
`strings.ToUpper(input) == "G" || (len(input) > 1 && strings.ToUpper(input)[0:1] == "G")`. -/
def isGlobalFilterInput (input : List Char) : Bool :=
  (input.map toUpperAscii == ['G'])
    || (decide (1 < input.length) && ((input.map toUpperAscii).take 1 == ['G']))

/-- The goto arm of the `g` command: move to `gotoNum - 1` when
`1 ≤ gotoNum ≤ n`, else keep the cursor and report an error (flag `false`). -/
def gotoHunkNumber (gotoNum : Int) (ix : Nat) (n : Nat) : Nat × Bool :=
  if 1 ≤ gotoNum ∧ gotoNum ≤ (n : Int) then ((gotoNum - 1).toNat, true)
  else (ix, false)

def setUseAt : List Hunk → Nat → Bool → List Hunk
  | [], _, _ => []
  | h :: t, 0, b => { h with Use := some b } :: t
  | h :: t, n + 1, b => h :: setUseAt t n b

/-- Set `Use := b` on every still-undecided hunk from position `ix` on
(the `q`/`a`/`d`/`A` loops). -/
def decideFrom : List Hunk → Nat → Bool → List Hunk
  | [], _, _ => []
  | h :: t, 0, b => (if h.Use == none then { h with Use := some b } else h) :: decideFrom t 0 b
  | h :: t, n + 1, b => h :: decideFrom t n b

def navNextAux : List Hunk → Nat → Nat
  | [], pos => pos
  | h :: t, pos => if h.Use != none then navNextAux t (pos + 1) else pos

/-- The `j` command: `ix+1`, then skip forward over decided hunks. -/
def navNext (hs : List Hunk) (ix : Nat) : Nat :=
  navNextAux (hs.drop (ix + 1)) (ix + 1)

def navPrevAux : List Hunk → Nat → Nat
  | [], _ => 0
  | h :: t, pos => if h.Use == none then pos else navPrevAux t (pos - 1)

/-- The `k` command: `ix-1`, skipping backward over decided hunks, floored
at 0. -/
def navPrev (hs : List Hunk) (ix : Nat) : Nat :=
  navPrevAux ((hs.take ix).reverse) (ix - 1)

/-- Observable effect of one dispatch of the prompt loop of
`patchUpdateFile`.  Branches whose behaviour involves further prompting or
external processes (`s`, `e`, `g`, `G`, `/`, help) are marker outcomes; the
pure branches carry the updated working list and cursor. -/
inductive StepOutcome where
  | cont (hunks : List Hunk) (ix : Nat)
  | quitFile (hunks : List Hunk)
  | applyFile (hunks : List Hunk)
  | acceptAllCmd (hunks : List Hunk)
  | autoSplitCmd (hunks : List Hunk)
  | splitCmd
  | editCmd
  | filterCmd
  | gotoCmd
  | searchCmd
  | helpCmd
deriving DecidableEq

/-- Command dispatch of `patchUpdateFile`: empty input re-prompts; `S` and
`A` are matched on the raw first character; everything else switches on the
lowercased first character. -/
def patchStep (hunks : List Hunk) (ix : Nat) (input : List Char) : StepOutcome :=
  match input with
  | [] => StepOutcome.cont hunks ix
  | c :: _ =>
    if c == 'S' then StepOutcome.autoSplitCmd (autoSplitAllHunks hunks)
    else if c == 'A' then StepOutcome.acceptAllCmd (decideFrom hunks 0 true)
    else
      let lc := toLowerAscii c
      if lc == 'y' then StepOutcome.cont (setUseAt hunks ix true) (ix + 1)
      else if lc == 'n' then StepOutcome.cont (setUseAt hunks ix false) (ix + 1)
      else if lc == 'q' then StepOutcome.quitFile (decideFrom hunks ix false)
      else if lc == 'a' then StepOutcome.applyFile (decideFrom hunks ix true)
      else if lc == 'd' then StepOutcome.applyFile (decideFrom hunks ix false)
      else if lc == 's' then StepOutcome.splitCmd
      else if lc == 'e' then StepOutcome.editCmd
      else if lc == 'j' then StepOutcome.cont hunks (navNext hunks ix)
      else if lc == 'k' then StepOutcome.cont hunks (navPrev hunks ix)
      else if lc == 'g' then
        if isGlobalFilterInput input then StepOutcome.filterCmd else StepOutcome.gotoCmd
      else if lc == '/' then StepOutcome.searchCmd
      else StepOutcome.helpCmd

def joinWith (sep : Char) : List (List Char) → List Char
  | [] => []
  | [o] => o
  | o :: t => o ++ sep :: joinWith sep t

/-- `buildOtherOptions` of the ui package: the extra options advertised in
the prompt for the current state. -/
def buildOtherOptions (hunks : List Hunk) (ix : Nat) : List Char :=
  let hasPrev := (hunks.take ix).any (fun h => h.Use == none)
  let hasNext := (hunks.drop (ix + 1)).any (fun h => h.Use == none)
  let cur := hunks.getD ix default
  let options : List (List Char) :=
    (if 0 < ix then [['K']] else [])
      ++ (if ix < hunks.length - 1 then [['J']] else [])
      ++ (if hasPrev then [['k']] else [])
      ++ (if hasNext then [['j']] else [])
      ++ (if 1 < hunks.length then [['g']] else [])
      ++ [['G'], ['A']]
      ++ (if HunkSplittable cur then [['s']] else [])
      ++ [['S']]
      ++ (if cur.kind == HunkType.hunk then [['e']] else [])
  if options.length > 0 then ',' :: joinWith ',' options else []

/-- A toy regexp engine used to instantiate the abstract `compile` in
witnesses: the one-character pattern `(` fails to compile, any other pattern
matches exactly the lines equal to it. -/
def sampleCompile (pat : List Char) : Option (Line → Bool) :=
  if pat == ['('] then none else some (fun l => l == pat)

/-- Generalisation of `validSplitIdx` tracking the `addDel` flag of the
search loop: `ad` records whether a `+`/`-` line was already seen before the
scanned suffix. -/
def validSplitIdxAux (ls : List Line) (ad : Bool) (r : Nat) : Bool :=
  decide (r < ls.length) && startsWith (ls.getD r []) [spCh]
    && (ad || (ls.take r).any isChange) && (ls.drop (r + 1)).any isChange

/-- Body of a hunk with `n + 1` one-character `+` blocks separated by `n`
context lines. -/
def altLines : Nat → List Line
  | 0 => [['+']]
  | n + 1 => ['+'] :: [spCh] :: altLines n

/-- A hunk with 13 independent change blocks: fully decomposing it takes 12
split rounds, more than the loop ceiling. -/
def deepHunk : Hunk :=
  { Text := ['@', '@'] :: altLines 12
    kind := HunkType.hunk
    Use := none
    OldLine := 1
    NewLine := 1
    OldCnt := 12
    NewCnt := 25 }

/-- A minimal splittable hunk used in witnesses. -/
def smallHunk : Hunk :=
  { Text := [['@', '@'], ['-', 'a'], [spCh, 'b'], ['+', 'c']]
    kind := HunkType.hunk
    Use := none
    OldLine := 1
    NewLine := 1
    OldCnt := 2
    NewCnt := 2 }

/-- A minimal file-header pseudo-hunk used in witnesses. -/
def smallHeader : Hunk :=
  { Text := [['d', 'i', 'f', 'f'], ['-', '-', '-', spCh, 'a'], ['+', '+', '+', spCh, 'b']]
    kind := HunkType.header
    Use := none
    OldLine := 0
    NewLine := 0
    OldCnt := 0
    NewCnt := 0 }

theorem startsWith_cons_single (x : Char) (xs : Line) (c : Char) :
    startsWith (x :: xs) [c] = (x == c) := by
  simp [startsWith]

theorem startsWith_single_ne (l : Line) (a b : Char) (h : startsWith l [a] = true)
    (hab : a ≠ b) : startsWith l [b] = false := by
  cases l with
  | nil => simp [startsWith] at h
  | cons x xs =>
    rw [startsWith_cons_single] at h ⊢
    have hx : x = a := by simpa using h
    subst hx
    simpa using hab

theorem oldCntOf_append (a b : List Line) :
    oldCntOf (a ++ b) = oldCntOf a + oldCntOf b := by
  simp [oldCntOf]

theorem newCntOf_append (a b : List Line) :
    newCntOf (a ++ b) = newCntOf a + newCntOf b := by
  simp [newCntOf]

theorem oldCntOf_cons (l : Line) (ls : List Line) :
    oldCntOf (l :: ls) = lineOldInc l + oldCntOf ls := by
  simp [oldCntOf]

theorem newCntOf_cons (l : Line) (ls : List Line) :
    newCntOf (l :: ls) = lineNewInc l + newCntOf ls := by
  simp [newCntOf]

theorem lineOldInc_context (l : Line) (h : startsWith l [spCh] = true) :
    lineOldInc l = 1 := by
  simp [lineOldInc, h]

theorem lineNewInc_context (l : Line) (h : startsWith l [spCh] = true) :
    lineNewInc l = 1 := by
  simp [lineNewInc, h]

theorem validAux_zero (l : Line) (t : List Line) (ad : Bool) :
    validSplitIdxAux (l :: t) ad 0 =
      (startsWith l [spCh] && (ad && hasMoreChanges t)) := by
  simp [validSplitIdxAux, hasMoreChanges, Bool.and_assoc]

theorem validAux_succ (l : Line) (t : List Line) (ad : Bool) (r : Nat) :
    validSplitIdxAux (l :: t) ad (r + 1) = validSplitIdxAux t (ad || isChange l) r := by
  simp [validSplitIdxAux, Bool.or_assoc]

theorem validSplitIdx_eq_aux (body : List Line) (r : Nat) :
    validSplitIdx body r = validSplitIdxAux body false r := rfl

theorem findSplit_shift (ls : List Line) (ad : Bool) (i : Nat) :
    findSplit ls ad i = (findSplit ls ad 0).map (fun r => r + i) := by
  induction ls generalizing ad i with
  | nil => rfl
  | cons l t ih =>
    simp only [findSplit]
    split_ifs <;>
      first
        | (rw [ih ad (i + 1), ih ad 1]
           cases findSplit t ad 0 with
           | none => rfl
           | some r => simp; omega)
        | (rw [ih true (i + 1), ih true 1]
           cases findSplit t true 0 with
           | none => rfl
           | some r => simp; omega)
        | simp

theorem valid_cons_iff (l : Line) (t : List Line) (ad : Bool) (p : Nat)
    (h0 : validSplitIdxAux (l :: t) ad 0 = false) :
    (validSplitIdxAux (l :: t) ad p = true ∧
        ∀ r < p, validSplitIdxAux (l :: t) ad r = false) ↔
      (∃ q, p = q + 1 ∧ validSplitIdxAux t (ad || isChange l) q = true ∧
        ∀ r < q, validSplitIdxAux t (ad || isChange l) r = false) := by
  cases p with
  | zero =>
    simp [h0]
  | succ q =>
    constructor
    · rintro ⟨hv, hmin⟩
      refine ⟨q, rfl, ?_, ?_⟩
      · rw [← validAux_succ]; exact hv
      · intro r hr
        rw [← validAux_succ]
        exact hmin (r + 1) (by omega)
    · rintro ⟨q2, hq2, hv, hmin⟩
      have hq : q2 = q := by omega
      subst hq
      refine ⟨by rw [validAux_succ]; exact hv, ?_⟩
      intro r hr
      cases r with
      | zero => exact h0
      | succ r2 =>
        rw [validAux_succ]
        exact hmin r2 (by omega)

theorem map_succ_iff (o : Option Nat) (p : Nat) (P : Nat → Prop)
    (hbase : ∀ q, o = some q ↔ P q) :
    o.map (fun r => r + 1) = some p ↔ ∃ q, p = q + 1 ∧ P q := by
  cases o with
  | none =>
    constructor
    · intro h; simp at h
    · rintro ⟨q, hq, hP⟩
      have := (hbase q).mpr hP
      simp at this
  | some q0 =>
    constructor
    · intro h
      simp at h
      exact ⟨q0, by omega, (hbase q0).mp rfl⟩
    · rintro ⟨q, hq, hP⟩
      have hq0 : some q0 = some q := (hbase q).mpr hP
      have : q0 = q := by simpa using hq0
      subst this
      simp
      omega

theorem findSplit_zero_some (ls : List Line) (ad : Bool) (p : Nat) :
    findSplit ls ad 0 = some p ↔
      (validSplitIdxAux ls ad p = true ∧
        ∀ r < p, validSplitIdxAux ls ad r = false) := by
  induction ls generalizing ad p with
  | nil => simp [findSplit, validSplitIdxAux]
  | cons l t ih =>
    simp only [findSplit]
    split_ifs with h1 h2 h3 h4
    · -- skipped backslash line
      have hsp : startsWith l [spCh] = false :=
        startsWith_single_ne l bsCh spCh h1 (by decide)
      have hich : isChange l = false := by
        simp [isChange, startsWith_single_ne l bsCh '+' h1 (by decide),
          startsWith_single_ne l bsCh '-' h1 (by decide)]
      have h0 : validSplitIdxAux (l :: t) ad 0 = false := by
        simp [validAux_zero, hsp]
      have hiff := valid_cons_iff l t ad p h0
      simp only [hich, Bool.or_false] at hiff
      rw [findSplit_shift t ad 1]
      exact Iff.trans (map_succ_iff _ p _ (fun q => ih ad q)) hiff.symm
    · -- split point found here
      have hv0 : validSplitIdxAux (l :: t) ad 0 = true := by
        simp [validAux_zero, h2, h3]
      constructor
      · intro h
        have hp : p = 0 := by simpa using h.symm
        subst hp
        exact ⟨hv0, fun r hr => absurd hr (by omega)⟩
      · rintro ⟨hv, hmin⟩
        cases p with
        | zero => rfl
        | succ q =>
          have := hmin 0 (by omega)
          rw [this] at hv0
          cases hv0
    · -- context line, but no split yet possible here
      have hich : isChange l = false := by
        simp [isChange, startsWith_single_ne l spCh '+' h2 (by decide),
          startsWith_single_ne l spCh '-' h2 (by decide)]
      have hmore : (ad && hasMoreChanges t) = false := by
        simpa using h3
      have h0 : validSplitIdxAux (l :: t) ad 0 = false := by
        simp [validAux_zero, hmore]
      have hiff := valid_cons_iff l t ad p h0
      simp only [hich, Bool.or_false] at hiff
      rw [findSplit_shift t ad 1]
      exact Iff.trans (map_succ_iff _ p _ (fun q => ih ad q)) hiff.symm
    · -- a + or - line: sets addDel
      have hsp : startsWith l [spCh] = false := by
        simpa using h2
      have hich : isChange l = true := by
        simpa [isChange] using h4
      have h0 : validSplitIdxAux (l :: t) ad 0 = false := by
        simp [validAux_zero, hsp]
      have hiff := valid_cons_iff l t ad p h0
      simp only [hich, Bool.or_true] at hiff
      rw [findSplit_shift t true 1]
      exact Iff.trans (map_succ_iff _ p _ (fun q => ih true q)) hiff.symm
    · -- any other line
      have hsp : startsWith l [spCh] = false := by
        simpa using h2
      have hich : isChange l = false := by
        simpa [isChange] using h4
      have h0 : validSplitIdxAux (l :: t) ad 0 = false := by
        simp [validAux_zero, hsp]
      have hiff := valid_cons_iff l t ad p h0
      simp only [hich, Bool.or_false] at hiff
      rw [findSplit_shift t ad 1]
      exact Iff.trans (map_succ_iff _ p _ (fun q => ih ad q)) hiff.symm

theorem findSplit_zero_none (ls : List Line) (ad : Bool) :
    findSplit ls ad 0 = none ↔ ∀ r, validSplitIdxAux ls ad r = false := by
  constructor
  · intro h r
    by_contra hr
    have hr2 : validSplitIdxAux ls ad r = true := by
      cases hv : validSplitIdxAux ls ad r
      · exact absurd hv hr
      · rfl
    have hex : ∃ n, validSplitIdxAux ls ad n = true := ⟨r, hr2⟩
    have hsome : findSplit ls ad 0 = some (Nat.find hex) := by
      rw [findSplit_zero_some]
      refine ⟨Nat.find_spec hex, fun s hs => ?_⟩
      have := Nat.find_min hex hs
      cases hv2 : validSplitIdxAux ls ad s
      · rfl
      · exact absurd hv2 this
    rw [h] at hsome
    cases hsome
  · intro hall
    cases hfs : findSplit ls ad 0 with
    | none => rfl
    | some p =>
      have := (findSplit_zero_some ls ad p).mp hfs
      rw [hall p] at this
      cases this.1

theorem splitHunkInternal_of_none (h : Hunk)
    (hfs : findSplit (h.Text.drop 1) false 1 = none) :
    splitHunkInternal h = [h] := by
  by_cases hk : h.kind = HunkType.hunk
  · unfold splitHunkInternal
    rw [if_neg (by simp [hk]), hfs]
  · simp [splitHunkInternal, hk]

theorem splitHunkInternal_of_some (h : Hunk) (hk : h.kind = HunkType.hunk) (p : Nat)
    (hfs : findSplit (h.Text.drop 1) false 1 = some p) :
    splitHunkInternal h = [mkSplit1 h p, mkSplit2 h p] := by
  unfold splitHunkInternal
  rw [if_neg (by simp [hk]), hfs]

theorem findSplit_body_some_iff (body : List Line) (p : Nat) :
    findSplit body false 1 = some (p + 1) ↔
      (validSplitIdx body p = true ∧ ∀ r < p, validSplitIdx body r = false) := by
  rw [findSplit_shift body false 1]
  simp only [validSplitIdx_eq_aux]
  constructor
  · intro hmap
    cases hfs : findSplit body false 0 with
    | none => rw [hfs] at hmap; cases hmap
    | some q =>
      rw [hfs] at hmap
      have hq : q = p := by simpa using hmap
      rw [hq] at hfs
      exact (findSplit_zero_some body false p).mp hfs
  · intro hv
    have := (findSplit_zero_some body false p).mpr hv
    rw [this]
    rfl

/-- C3: `SplitHunk` splits a splittable `Change` hunk at the first valid
split point of its body (a context line preceded and followed by a `+`/`-`
line, `\` lines being irrelevant to the search), yielding exactly the two
hunks `mkSplit1`/`mkSplit2`; a hunk with no such point, or whose kind is not
`Change`, is returned as the unchanged singleton; and `HunkSplittable` is
false exactly in those cases. -/
theorem split_first_point_characterization (h : Hunk) :
    (HunkSplittable h = true ↔
      (h.kind = HunkType.hunk ∧ ∃ r, validSplitIdx (h.Text.drop 1) r = true))
    ∧ ((h.kind ≠ HunkType.hunk ∨ ∀ r, validSplitIdx (h.Text.drop 1) r = false) →
        SplitHunk h = [h])
    ∧ (∀ q, h.kind = HunkType.hunk → validSplitIdx (h.Text.drop 1) q = true →
        (∀ r < q, validSplitIdx (h.Text.drop 1) r = false) →
        SplitHunk h = [mkSplit1 h (q + 1), mkSplit2 h (q + 1)])
    := by
  refine ⟨?_, ?_, ?_⟩
  · by_cases hk : h.kind = HunkType.hunk
    · constructor
      · intro hsp
        refine ⟨hk, ?_⟩
        cases hfs : findSplit (h.Text.drop 1) false 1 with
        | none =>
          rw [HunkSplittable, if_neg (by simp [hk]),
            splitHunkInternal_of_none h hfs] at hsp
          simp at hsp
        | some p =>
          rw [findSplit_shift] at hfs
          cases hfs0 : findSplit (h.Text.drop 1) false 0 with
          | none => rw [hfs0] at hfs; cases hfs
          | some q =>
            have := (findSplit_zero_some (h.Text.drop 1) false q).mp hfs0
            exact ⟨q, by rw [validSplitIdx_eq_aux]; exact this.1⟩
      · rintro ⟨-, r, hr⟩
        cases hfs0 : findSplit (h.Text.drop 1) false 0 with
        | none =>
          have := (findSplit_zero_none (h.Text.drop 1) false).mp hfs0 r
          rw [validSplitIdx_eq_aux, this] at hr
          cases hr
        | some q =>
          have hfs : findSplit (h.Text.drop 1) false 1 = some (q + 1) := by
            rw [findSplit_shift, hfs0]; rfl
          rw [HunkSplittable, if_neg (by simp [hk]),
            splitHunkInternal_of_some h hk (q + 1) hfs]
          simp
    · constructor
      · intro hsp
        rw [HunkSplittable, if_pos (by simp [hk])] at hsp
        cases hsp
      · rintro ⟨hk2, -⟩
        exact absurd hk2 hk
  · rintro (hk | hnone)
    · simp [SplitHunk, splitHunkInternal, hk]
    · have hfs0 : findSplit (h.Text.drop 1) false 0 = none := by
        rw [findSplit_zero_none]
        intro r
        rw [← validSplitIdx_eq_aux]
        exact hnone r
      have hfs : findSplit (h.Text.drop 1) false 1 = none := by
        rw [findSplit_shift, hfs0]; rfl
      exact splitHunkInternal_of_none h hfs
  · intro q hk hv hmin
    have hfs : findSplit (h.Text.drop 1) false 1 = some (q + 1) :=
      (findSplit_body_some_iff (h.Text.drop 1) q).mpr ⟨hv, hmin⟩
    exact splitHunkInternal_of_some h hk (q + 1) hfs

theorem split_first_point_witness :
    SplitHunk smallHunk = [mkSplit1 smallHunk 2, mkSplit2 smallHunk 2] :=
  (split_first_point_characterization smallHunk).2.2 1 (by decide) (by decide)
    (by decide)

/-- C1: for a splittable `Change` hunk whose header counts equal the body
tallies, the two split halves reproduce the body lines (shared context line
counted once), their counts sum to the original plus the shared line, the
left half keeps the original start lines, and the right half's start lines
are shifted by the left counts minus one. -/
theorem split_conservation (h l r : Hunk)
    (hk : h.kind = HunkType.hunk)
    (hoc : h.OldCnt = oldCntOf (h.Text.drop 1))
    (hnc : h.NewCnt = newCntOf (h.Text.drop 1))
    (hsplit : SplitHunk h = [l, r]) :
    l.Text.drop 1 ++ (r.Text.drop 1).drop 1 = h.Text.drop 1
    ∧ l.OldCnt + r.OldCnt - 1 = h.OldCnt
    ∧ l.NewCnt + r.NewCnt - 1 = h.NewCnt
    ∧ l.OldLine = h.OldLine ∧ l.NewLine = h.NewLine
    ∧ r.OldLine = h.OldLine + l.OldCnt - 1
    ∧ r.NewLine = h.NewLine + l.NewCnt - 1 := by
  rw [SplitHunk] at hsplit
  cases hfs0 : findSplit (h.Text.drop 1) false 0 with
  | none =>
    have hfs : findSplit (h.Text.drop 1) false 1 = none := by
      rw [findSplit_shift, hfs0]; rfl
    rw [splitHunkInternal_of_none h hfs] at hsplit
    simp at hsplit
  | some q =>
    have hfs : findSplit (h.Text.drop 1) false 1 = some (q + 1) := by
      rw [findSplit_shift, hfs0]; rfl
    rw [splitHunkInternal_of_some h hk (q + 1) hfs] at hsplit
    simp only [List.cons.injEq, and_true] at hsplit
    obtain ⟨hl, hr⟩ := hsplit
    subst hl
    subst hr
    have hspec := (findSplit_zero_some (h.Text.drop 1) false q).mp hfs0
    have hval := hspec.1
    rw [validSplitIdxAux] at hval
    simp only [Bool.and_eq_true, decide_eq_true_eq] at hval
    obtain ⟨⟨⟨hlen, hctx⟩, -⟩, -⟩ := hval
    have hctx2 : startsWith ((h.Text.drop 1)[q]) [spCh] = true := by
      rw [← List.getD_eq_getElem (h.Text.drop 1) [] hlen]
      exact hctx
    have hcons : (h.Text.drop 1).drop q =
        (h.Text.drop 1)[q] :: (h.Text.drop 1).drop (q + 1) :=
      List.drop_eq_getElem_cons hlen
    have hdrop2 : h.Text.drop (q + 1) = (h.Text.drop 1).drop q := by
      rw [List.drop_drop]
      congr 1
      omega
    have hdrop3 : (h.Text.drop (q + 1)).drop 1 = (h.Text.drop 1).drop (q + 1) := by
      rw [List.drop_drop, List.drop_drop]
      congr 1
      omega
    have hosum : oldCntOf (h.Text.drop 1) =
        oldCntOf ((h.Text.drop 1).take (q + 1)) +
          oldCntOf ((h.Text.drop 1).drop (q + 1)) := by
      conv_lhs => rw [← List.take_append_drop (q + 1) (h.Text.drop 1)]
      rw [oldCntOf_append]
    have hnsum : newCntOf (h.Text.drop 1) =
        newCntOf ((h.Text.drop 1).take (q + 1)) +
          newCntOf ((h.Text.drop 1).drop (q + 1)) := by
      conv_lhs => rw [← List.take_append_drop (q + 1) (h.Text.drop 1)]
      rw [newCntOf_append]
    refine ⟨?_, ?_, ?_, rfl, rfl, rfl, rfl⟩
    · show (h.Text.drop 1).take (q + 1) ++ (h.Text.drop (q + 1)).drop 1 = h.Text.drop 1
      rw [hdrop3, List.take_append_drop]
    · show oldCntOf ((h.Text.drop 1).take (q + 1)) + oldCntOf (h.Text.drop (q + 1)) - 1
        = h.OldCnt
      rw [hdrop2, hcons, oldCntOf_cons, lineOldInc_context _ hctx2, hoc, hosum]
      omega
    · show newCntOf ((h.Text.drop 1).take (q + 1)) + newCntOf (h.Text.drop (q + 1)) - 1
        = h.NewCnt
      rw [hdrop2, hcons, newCntOf_cons, lineNewInc_context _ hctx2, hnc, hnsum]
      omega

theorem split_conservation_witness :
    (mkSplit1 smallHunk 2).Text.drop 1 ++ (((mkSplit2 smallHunk 2).Text.drop 1).drop 1)
        = smallHunk.Text.drop 1
      ∧ (mkSplit1 smallHunk 2).OldCnt + (mkSplit2 smallHunk 2).OldCnt - 1 = smallHunk.OldCnt
      ∧ (mkSplit1 smallHunk 2).NewCnt + (mkSplit2 smallHunk 2).NewCnt - 1 = smallHunk.NewCnt
      ∧ (mkSplit1 smallHunk 2).OldLine = smallHunk.OldLine
      ∧ (mkSplit1 smallHunk 2).NewLine = smallHunk.NewLine
      ∧ (mkSplit2 smallHunk 2).OldLine = smallHunk.OldLine + (mkSplit1 smallHunk 2).OldCnt - 1
      ∧ (mkSplit2 smallHunk 2).NewLine = smallHunk.NewLine + (mkSplit1 smallHunk 2).NewCnt - 1 :=
  split_conservation smallHunk (mkSplit1 smallHunk 2) (mkSplit2 smallHunk 2)
    (by decide) (by decide) (by decide) (by decide)

theorem digitChar_is_digit (d : Nat) (hd : d < 10) : isDigitCh (digitChar d) = true := by
  interval_cases d <;> decide

theorem charVal_digitChar (d : Nat) (hd : d < 10) : charVal (digitChar d) = d := by
  interval_cases d <;> decide

theorem natToStrAux_digits (fuel : Nat) :
    ∀ n, n ≤ fuel → ∀ c ∈ natToStrAux fuel n, isDigitCh c = true := by
  induction fuel with
  | zero => intro n _ c hc; simp [natToStrAux] at hc
  | succ f ih =>
    intro n hn c hc
    by_cases h0 : n = 0
    · simp [natToStrAux, h0] at hc
    · rw [natToStrAux, if_neg h0] at hc
      rcases List.mem_append.mp hc with hc1 | hc2
      · have hdiv : n / 10 < n := Nat.div_lt_self (Nat.pos_of_ne_zero h0) (by norm_num)
        exact ih (n / 10) (by omega) c hc1
      · have hc3 : c = digitChar (n % 10) := by simpa using hc2
        rw [hc3]
        exact digitChar_is_digit _ (Nat.mod_lt _ (by omega))

theorem digitsVal_append_single (xs : List Char) (c : Char) :
    digitsVal (xs ++ [c]) = 10 * digitsVal xs + charVal c := by
  simp [digitsVal, List.foldl_append]

theorem natToStrAux_val (fuel : Nat) :
    ∀ n, n ≤ fuel → digitsVal (natToStrAux fuel n) = n := by
  induction fuel with
  | zero =>
    intro n hn
    have : n = 0 := by omega
    subst this
    rfl
  | succ f ih =>
    intro n hn
    by_cases h0 : n = 0
    · subst h0; rfl
    · rw [natToStrAux, if_neg h0]
      have hdiv : n / 10 < n := Nat.div_lt_self (Nat.pos_of_ne_zero h0) (by norm_num)
      rw [digitsVal_append_single, ih (n / 10) (by omega),
        charVal_digitChar _ (Nat.mod_lt _ (by omega))]
      omega

theorem natToStrAux_ne_nil (fuel n : Nat) (h1 : 0 < n) (h2 : n ≤ fuel) :
    natToStrAux fuel n ≠ [] := by
  cases fuel with
  | zero => omega
  | succ f =>
    rw [natToStrAux, if_neg (by omega)]
    simp

theorem natToStr_digits (n : Nat) : ∀ c ∈ natToStr n, isDigitCh c = true := by
  intro c hc
  by_cases h0 : n = 0
  · subst h0
    have : c = '0' := by simpa [natToStr] using hc
    rw [this]; decide
  · rw [natToStr, if_neg h0] at hc
    exact natToStrAux_digits n n (le_refl n) c hc

theorem natToStr_val (n : Nat) : digitsVal (natToStr n) = n := by
  by_cases h0 : n = 0
  · subst h0; rfl
  · rw [natToStr, if_neg h0]
    exact natToStrAux_val n n (le_refl n)

theorem natToStr_ne_nil (n : Nat) : natToStr n ≠ [] := by
  by_cases h0 : n = 0
  · subst h0; simp [natToStr]
  · rw [natToStr, if_neg h0]
    exact natToStrAux_ne_nil n n (by omega) (le_refl n)

theorem takeDigits_append (ds rest : List Char)
    (hd : ∀ c ∈ ds, isDigitCh c = true)
    (hr : ∀ c, rest.head? = some c → isDigitCh c = false) :
    takeDigits (ds ++ rest) = (ds, rest) := by
  induction ds with
  | nil =>
    cases rest with
    | nil => rfl
    | cons c cs =>
      have := hr c rfl
      simp [takeDigits, this]
  | cons d ds2 ih =>
    have hdd : isDigitCh d = true := hd d (by simp)
    have hrec := ih (fun c hc => hd c (by simp [hc]))
    simp [takeDigits, hdd, hrec]

theorem parseNatTok_round (n : Nat) (rest : List Char)
    (hr : ∀ c, rest.head? = some c → isDigitCh c = false) :
    parseNatTok (natToStr n ++ rest) = some (n, rest) := by
  have htd := takeDigits_append (natToStr n) rest (natToStr_digits n) hr
  rw [parseNatTok, htd]
  cases hns : natToStr n with
  | nil => exact absurd hns (natToStr_ne_nil n)
  | cons a as =>
    have : digitsVal (a :: as) = n := by rw [← hns]; exact natToStr_val n
    simp [this]

theorem expectLit_append (lit rest : List Char) :
    expectLit (lit ++ rest) lit = some rest := by
  induction lit with
  | nil => simp [expectLit]
  | cons c cs ih => simp [expectLit, ih]

theorem parseOptCountTok_no_comma (tail : List Char)
    (ht2 : tail.head? ≠ some ',') :
    parseOptCountTok tail = some (1, tail) := by
  cases tail with
  | nil => rfl
  | cons x xs =>
    have hx : (x == ',') = false := by
      cases hxx : x == ','
      · rfl
      · exact absurd (by simp [show x = ',' from by simpa using hxx]) ht2
    simp [parseOptCountTok, hx]

theorem numWithCount_parse (a b : Nat) (tail : List Char)
    (ht1 : ∀ x, tail.head? = some x → isDigitCh x = false)
    (ht2 : tail.head? ≠ some ',') :
    parseNatTok (natToStr a ++ ((if b ≠ 1 then ',' :: natToStr b else []) ++ tail))
        = some (a, (if b ≠ 1 then ',' :: natToStr b else []) ++ tail)
      ∧ parseOptCountTok ((if b ≠ 1 then ',' :: natToStr b else []) ++ tail)
        = some (b, tail) := by
  by_cases hb : b = 1
  · subst hb
    simp only [ne_eq, not_true_eq_false, if_false, List.nil_append]
    exact ⟨parseNatTok_round a tail ht1, parseOptCountTok_no_comma tail ht2⟩
  · rw [if_pos hb]
    constructor
    · apply parseNatTok_round
      intro x hx
      have hx2 : x = ',' := by
        have := hx
        simp at this
        exact this.symm
      subst hx2
      decide
    · have hrec : parseNatTok (natToStr b ++ tail) = some (b, tail) :=
        parseNatTok_round b tail ht1
      simp [parseOptCountTok, hrec]

/-- C4: serializing a header via `updateHunkHeaderLine` (count omitted exactly
when it is 1) and re-parsing it via `parseHunkHeaderLine` returns the same
four integers, for positive start lines and non-negative counts. -/
theorem header_round_trip (ol oc nl nc : Int)
    (h1 : 0 < ol) (h2 : 0 < nl) (h3 : 0 ≤ oc) (h4 : 0 ≤ nc) :
    parseHunkHeaderLine (updateHunkHeaderLine ol oc nl nc) = some (ol, oc, nl, nc) := by
  have hca : ((ol.toNat : Int)) = ol := Int.toNat_of_nonneg (by omega)
  have hcb : ((oc.toNat : Int)) = oc := Int.toNat_of_nonneg h3
  have hcc : ((nl.toNat : Int)) = nl := Int.toNat_of_nonneg (by omega)
  have hcd : ((nc.toNat : Int)) = nc := Int.toNat_of_nonneg h4
  have hol : intToStr ol = natToStr ol.toNat := by rw [intToStr, if_neg (by omega)]
  have hnl : intToStr nl = natToStr nl.toNat := by rw [intToStr, if_neg (by omega)]
  have hocs : (if oc ≠ 1 then ',' :: intToStr oc else [])
      = (if oc.toNat ≠ 1 then ',' :: natToStr oc.toNat else []) := by
    by_cases hb : oc.toNat = 1
    · have hoc1 : oc = 1 := by omega
      rw [if_neg (by simp [hoc1]), if_neg (by simp [hb])]
    · rw [if_pos (by omega), if_pos hb, intToStr, if_neg (by omega)]
  have hncs : (if nc ≠ 1 then ',' :: intToStr nc else [])
      = (if nc.toNat ≠ 1 then ',' :: natToStr nc.toNat else []) := by
    by_cases hb : nc.toNat = 1
    · have hnc1 : nc = 1 := by omega
      rw [if_neg (by simp [hnc1]), if_neg (by simp [hb])]
    · rw [if_pos (by omega), if_pos hb, intToStr, if_neg (by omega)]
  have hline : updateHunkHeaderLine ol oc nl nc =
      ['@', '@', spCh, '-'] ++ (natToStr ol.toNat
        ++ ((if oc.toNat ≠ 1 then ',' :: natToStr oc.toNat else [])
          ++ ([spCh, '+'] ++ (natToStr nl.toNat
            ++ ((if nc.toNat ≠ 1 then ',' :: natToStr nc.toNat else [])
              ++ [spCh, '@', '@']))))) := by
    rw [updateHunkHeaderLine, hol, hnl, hocs, hncs]
    simp [List.append_assoc]
  have htail1 : ∀ x, (([spCh, '+'] ++ (natToStr nl.toNat
      ++ ((if nc.toNat ≠ 1 then ',' :: natToStr nc.toNat else [])
        ++ [spCh, '@', '@']))).head? = some x) → isDigitCh x = false := by
    intro x hx
    have hx2 : x = spCh := by
      have := hx
      simp at this
      exact this.symm
    subst hx2
    decide
  have htail2 : (([spCh, '+'] ++ (natToStr nl.toNat
      ++ ((if nc.toNat ≠ 1 then ',' :: natToStr nc.toNat else [])
        ++ [spCh, '@', '@']))).head?) ≠ some ',' := by
    simp
    decide
  have htail3 : ∀ x, (([spCh, '@', '@'] : List Char).head? = some x) →
      isDigitCh x = false := by
    intro x hx
    have hx2 : x = spCh := by
      have := hx
      simp at this
      exact this.symm
    subst hx2
    decide
  have htail4 : (([spCh, '@', '@'] : List Char).head?) ≠ some ',' := by
    simp
    decide
  have hp1 := numWithCount_parse ol.toNat oc.toNat _ htail1 htail2
  have hp2 := numWithCount_parse nl.toNat nc.toNat [spCh, '@', '@'] htail3 htail4
  have hlast : expectLit [spCh, '@', '@'] [spCh, '@', '@'] = some [] := by
    have := expectLit_append [spCh, '@', '@'] []
    simpa using this
  rw [hline]
  simp only [parseHunkHeaderLine, expectLit_append, hp1.1, hp1.2,
    hp2.1, hp2.2, hlast]
  rw [hca, hcb, hcc, hcd]

theorem header_round_trip_witness :
    parseHunkHeaderLine (updateHunkHeaderLine 3 1 4 0) = some (3, 1, 4, 0) :=
  header_round_trip 3 1 4 0 (by decide) (by decide) (by decide) (by decide)

theorem filterHunks_eq_filter (compile : List Char → Option (Line → Bool))
    (hunks : List Hunk) (pat : List Char) :
    filterHunksByRegex compile hunks pat
      = hunks.filter (fun h => hunkMatchesRegex compile h pat) := by
  cases hc : compile pat with
  | none =>
    rw [filterHunksByRegex, hc]
    have hm : ∀ h : Hunk, hunkMatchesRegex compile h pat = false := by
      intro h; rw [hunkMatchesRegex, hc]
    exact (List.filter_eq_nil_iff.mpr (fun h _ => by simp [hm h])).symm
  | some m =>
    rw [filterHunksByRegex, hc]

theorem filterHunks_nil_iff (compile : List Char → Option (Line → Bool))
    (hunks : List Hunk) (pat : List Char) :
    filterHunksByRegex compile hunks pat = [] ↔
      ∀ h ∈ hunks, hunkMatchesRegex compile h pat = false := by
  rw [filterHunks_eq_filter, List.filter_eq_nil_iff]
  constructor
  · intro hall h hh
    have := hall h hh
    simpa using this
  · intro hall h hh
    simp [hall h hh]

theorem matches_false_of_bad_pattern (compile : List Char → Option (Line → Bool))
    (pat : List Char) (hc : compile pat = none) :
    ∀ h : Hunk, hunkMatchesRegex compile h pat = false := by
  intro h; rw [hunkMatchesRegex, hc]

/-- C8: the filter returns exactly the hunks matching the pattern, in order;
it is empty iff no hunk matches; and an uncompilable pattern makes every hunk
non-matching and the filter result empty rather than an error. -/
theorem filter_soundness (compile : List Char → Option (Line → Bool))
    (hunks : List Hunk) (pat : List Char) :
    filterHunksByRegex compile hunks pat
        = hunks.filter (fun h => hunkMatchesRegex compile h pat)
      ∧ (filterHunksByRegex compile hunks pat = [] ↔
          ∀ h ∈ hunks, hunkMatchesRegex compile h pat = false)
      ∧ (compile pat = none →
          (∀ h : Hunk, hunkMatchesRegex compile h pat = false)
            ∧ filterHunksByRegex compile hunks pat = []) := by
  refine ⟨filterHunks_eq_filter compile hunks pat, filterHunks_nil_iff compile hunks pat, ?_⟩
  intro hc
  refine ⟨matches_false_of_bad_pattern compile pat hc, ?_⟩
  rw [filterHunks_nil_iff]
  intro h _
  exact matches_false_of_bad_pattern compile pat hc h

theorem filter_soundness_witness :
    filterHunksByRegex sampleCompile [smallHunk, smallHeader] ['-', 'a']
        = [smallHunk, smallHeader].filter
            (fun h => hunkMatchesRegex sampleCompile h ['-', 'a'])
      ∧ (filterHunksByRegex sampleCompile [smallHunk, smallHeader] ['-', 'a'] = [] ↔
          ∀ h ∈ [smallHunk, smallHeader],
            hunkMatchesRegex sampleCompile h ['-', 'a'] = false)
      ∧ (sampleCompile ['-', 'a'] = none →
          (∀ h : Hunk, hunkMatchesRegex sampleCompile h ['-', 'a'] = false)
            ∧ filterHunksByRegex sampleCompile [smallHunk, smallHeader] ['-', 'a'] = []) :=
  filter_soundness sampleCompile [smallHunk, smallHeader] ['-', 'a']

/-- C6 (counterexample): with a pattern matching no hunk, the `G` handler
leaves the working list as the original (non-empty) list and the cursor in
place, instead of installing the empty filtered list; only the session filter
and a diagnostic change. -/
theorem gfilter_nomatch_counterexample :
    filterHunksByRegex sampleCompile [smallHunk] ['z'] = []
      ∧ gFilterSet sampleCompile [smallHunk] 0 ['z'] = (['z'], [smallHunk], 0, false)
      ∧ (gFilterSet sampleCompile [smallHunk] 0 ['z']).2.1 ≠ [] := by
  decide

/-- C6 (amended): a non-empty `G` pattern always records the global filter;
when some hunk matches, the working list becomes the filtered list with the
cursor reset to 0; when no hunk matches, a no-match diagnostic is reported and
both the working list and the cursor are left unchanged, the prompt loop
continuing. -/
theorem gfilter_set_behavior (compile : List Char → Option (Line → Bool))
    (hunks : List Hunk) (ix : Nat) (pat : List Char) :
    (gFilterSet compile hunks ix pat).1 = pat
      ∧ (filterHunksByRegex compile hunks pat ≠ [] →
          gFilterSet compile hunks ix pat
            = (pat, filterHunksByRegex compile hunks pat, 0, true))
      ∧ (filterHunksByRegex compile hunks pat = [] →
          gFilterSet compile hunks ix pat = (pat, hunks, ix, false)) := by
  refine ⟨?_, ?_, ?_⟩
  · simp only [gFilterSet]
    split_ifs <;> rfl
  · intro hne
    simp only [gFilterSet]
    rw [if_neg (by simpa [List.length_eq_zero] using hne)]
  · intro heq
    simp only [gFilterSet]
    rw [if_pos (by simp [heq])]

theorem gfilter_set_witness :
    gFilterSet sampleCompile [smallHunk] 0 ['-', 'a'] = (['-', 'a'], [smallHunk], 0, true) := by
  have h := (gfilter_set_behavior sampleCompile [smallHunk] 0 ['-', 'a']).2.1 (by decide)
  rw [h]
  decide

theorem splitHunk_use_none (h : Hunk) (hu : h.Use = none) :
    ∀ g ∈ splitHunkInternal h, g.Use = none := by
  intro g hg
  by_cases hk : h.kind ≠ HunkType.hunk
  · rw [splitHunkInternal, if_pos hk] at hg
    have : g = h := by simpa using hg
    rw [this]; exact hu
  · rw [splitHunkInternal, if_neg hk] at hg
    cases hfs : findSplit (h.Text.drop 1) false 1 with
    | none =>
      rw [hfs] at hg
      have : g = h := by simpa using hg
      rw [this]; exact hu
    | some p =>
      rw [hfs] at hg
      simp only [List.mem_cons, List.mem_singleton] at hg
      rcases hg with hg | hg | hg
      · rw [hg]; rfl
      · rw [hg]; rfl
      · cases hg

theorem onePass_use_none (hs : List Hunk) (hu : ∀ h ∈ hs, h.Use = none) :
    ∀ g ∈ (onePass hs).1, g.Use = none := by
  induction hs with
  | nil => intro g hg; simp [onePass] at hg
  | cons h t ih =>
    intro g hg
    have hu1 : h.Use = none := hu h (by simp)
    have hu2 : ∀ x ∈ t, x.Use = none := fun x hx => hu x (by simp [hx])
    simp only [onePass] at hg
    split_ifs at hg with h1 h2
    · rcases List.mem_append.mp hg with hg1 | hg2
      · exact splitHunk_use_none h hu1 g hg1
      · exact ih hu2 g hg2
    · rcases List.mem_cons.mp hg with hg1 | hg2
      · rw [hg1]; exact hu1
      · exact ih hu2 g hg2
    · rcases List.mem_cons.mp hg with hg1 | hg2
      · rw [hg1]; exact hu1
      · exact ih hu2 g hg2

theorem splitLoop_use_none (fuel : Nat) :
    ∀ current rounds, (∀ h ∈ current, h.Use = none) →
      ∀ g ∈ (splitLoop fuel current rounds).1, g.Use = none := by
  induction fuel with
  | zero => intro current rounds hu g hg; exact hu g hg
  | succ f ih =>
    intro current rounds hu g hg
    rw [splitLoop] at hg
    split_ifs at hg
    · exact onePass_use_none current hu g hg
    · exact ih (onePass current).1 (rounds + 1) (onePass_use_none current hu) g hg

theorem autoSplit_use_none (hs : List Hunk) (hu : ∀ h ∈ hs, h.Use = none) :
    ∀ g ∈ autoSplitAllHunks hs, g.Use = none := by
  induction hs with
  | nil => intro g hg; simp [autoSplitAllHunks] at hg
  | cons h t ih =>
    intro g hg
    have hu1 : h.Use = none := hu h (by simp)
    have hu2 : ∀ x ∈ t, x.Use = none := fun x hx => hu x (by simp [hx])
    rw [autoSplitAllHunks] at hg
    rcases List.mem_append.mp hg with hg1 | hg2
    · split_ifs at hg1
      · exact splitLoop_use_none 11 [h] 0 (by simpa using hu1) g hg1
      · have : g = h := by simpa using hg1
        rw [this]; exact hu1
    · exact ih hu2 g hg2

/-- C7: per-file preprocessing auto-splits (when enabled) before applying
the global filter, an empty filter result skips the file with nothing
applied, and bulk accept-all accepts and applies exactly the hunks surviving
split-then-filter (each marked accepted), while hunks the filter removed are
never decided: the split working list they live in is all-Undecided. -/
theorem preprocess_accept_all (compile : List Char → Option (Line → Bool))
    (autoSplit : Bool) (gfilter : List Char) (header : Hunk) (actual : List Hunk)
    (hne : actual ≠ []) (hf : gfilter ≠ []) :
    preprocessFileHunks compile autoSplit gfilter actual
        = (if filterHunksByRegex compile
              (if autoSplit then autoSplitAllHunks actual else actual) gfilter = []
           then none
           else some (filterHunksByRegex compile
              (if autoSplit then autoSplitAllHunks actual else actual) gfilter))
      ∧ filterHunksByRegex compile
            (if autoSplit then autoSplitAllHunks actual else actual) gfilter
          = (if autoSplit then autoSplitAllHunks actual else actual).filter
              (fun h => hunkMatchesRegex compile h gfilter)
      ∧ (filterHunksByRegex compile
            (if autoSplit then autoSplitAllHunks actual else actual) gfilter = [] →
          acceptAllHunksInFile compile autoSplit gfilter (header :: actual) = none)
      ∧ (filterHunksByRegex compile
            (if autoSplit then autoSplitAllHunks actual else actual) gfilter ≠ [] →
          acceptAllHunksInFile compile autoSplit gfilter (header :: actual)
            = some ((filterHunksByRegex compile
                  (if autoSplit then autoSplitAllHunks actual else actual) gfilter).map
                    (fun h => { h with Use := some true }),
                reassemblePatch (header ::
                  (filterHunksByRegex compile
                    (if autoSplit then autoSplitAllHunks actual else actual) gfilter).map
                      (fun h => { h with Use := some true }))))
      ∧ ((∀ h ∈ actual, h.Use = none) →
          ∀ g ∈ (if autoSplit then autoSplitAllHunks actual else actual), g.Use = none) := by
  have hfe : gfilter.isEmpty = false := by
    cases gfilter with
    | nil => exact absurd rfl hf
    | cons a b => rfl
  have hae : actual.isEmpty = false := by
    cases actual with
    | nil => exact absurd rfl hne
    | cons a b => rfl
  have hA : preprocessFileHunks compile autoSplit gfilter actual
      = (if filterHunksByRegex compile
            (if autoSplit then autoSplitAllHunks actual else actual) gfilter = []
         then none
         else some (filterHunksByRegex compile
            (if autoSplit then autoSplitAllHunks actual else actual) gfilter)) := by
    rw [preprocessFileHunks]
    rw [if_neg (by simp [hfe])]
    by_cases hfil : filterHunksByRegex compile
        (if autoSplit then autoSplitAllHunks actual else actual) gfilter = []
    · simp [hfil]
    · simp [hfil]
  refine ⟨hA, filterHunks_eq_filter compile _ gfilter, ?_, ?_, ?_⟩
  · intro hfil
    rw [acceptAllHunksInFile]
    rw [if_neg (by simp [hae])]
    rw [hA, if_pos hfil]
  · intro hfil
    rw [acceptAllHunksInFile]
    rw [if_neg (by simp [hae])]
    rw [hA, if_neg hfil]
    have hacc : ((filterHunksByRegex compile
        (if autoSplit then autoSplitAllHunks actual else actual) gfilter).map
          (fun h => { h with Use := some true })).filter
            (fun h => h.Use == some true)
        = (filterHunksByRegex compile
            (if autoSplit then autoSplitAllHunks actual else actual) gfilter).map
              (fun h => { h with Use := some true }) := by
      apply List.filter_eq_self.mpr
      intro x hx
      rcases List.mem_map.mp hx with ⟨y, -, hy⟩
      rw [← hy]
      rfl
    have hlen : (header :: ((filterHunksByRegex compile
        (if autoSplit then autoSplitAllHunks actual else actual) gfilter).map
          (fun h => { h with Use := some true }))).length > 1 := by
      simp only [List.length_cons, List.length_map]
      have := List.length_pos.mpr hfil
      omega
    simp only [hacc]
    rw [if_pos hlen]
  · intro hu
    by_cases hs : autoSplit
    · rw [if_pos hs]
      exact autoSplit_use_none actual hu
    · rw [if_neg hs]
      exact hu

theorem preprocess_accept_all_witness :
    acceptAllHunksInFile sampleCompile false ['-', 'a'] [smallHeader, smallHunk]
      = some ([{ smallHunk with Use := some true }],
          reassemblePatch [smallHeader, { smallHunk with Use := some true }]) := by
  have h := (preprocess_accept_all sampleCompile false ['-', 'a'] smallHeader [smallHunk]
    (by decide) (by decide)).2.2.2.1 (by decide)
  simpa using h

theorem reassembleCollect_true (hl : List Line) (rest : List Hunk) :
    reassembleCollect hl rest true = allTextLines rest := by
  induction rest with
  | nil => rfl
  | cons h t ih => simp [reassembleCollect, allTextLines, ih]

theorem reassembleCollect_false (hl : List Line) (rest : List Hunk) :
    reassembleCollect hl rest false =
      (if rest.any (fun h => h.kind == HunkType.hunk)
       then allTextLines (rest.takeWhile (fun h => h.kind != HunkType.hunk))
         ++ hl.filter isMarkerLine
         ++ allTextLines (rest.dropWhile (fun h => h.kind != HunkType.hunk))
       else allTextLines rest) := by
  induction rest with
  | nil => simp [reassembleCollect, allTextLines]
  | cons h t ih =>
    by_cases hk : h.kind = HunkType.hunk
    · simp [reassembleCollect, hk, reassembleCollect_true, allTextLines]
    · by_cases hany : t.any (fun g => g.kind == HunkType.hunk)
      · simp [reassembleCollect, hk, ih, hany, allTextLines, List.append_assoc]
      · simp [reassembleCollect, hk, ih, hany, allTextLines]

theorem reassembleLines_spec (header : Hunk) (rest : List Hunk) :
    reassembleLines (header :: rest) = reassembleSpecLines header rest := by
  rw [reassembleLines, reassembleCollect_false]
  by_cases hany : rest.any (fun h => h.kind == HunkType.hunk) <;>
    simp [reassembleSpecLines, hany, List.append_assoc]

theorem joinNL_getLast (lines : List Line)
    (hclean : ∀ l ∈ lines, cleanLine l = true) (hne : lines ≠ []) :
    ∃ c, (joinNL lines).getLast? = some c ∧ c ≠ nlCh := by
  induction lines with
  | nil => exact absurd rfl hne
  | cons l t ih =>
    have hcl : cleanLine l = true := hclean l (by simp)
    have hcl2 : l ≠ [] ∧ nlCh ∉ l := by
      have hx := hcl
      simp [cleanLine, List.isEmpty_iff] at hx
      exact hx
    have hlne : l ≠ [] := hcl2.1
    have hlnl : nlCh ∉ l := hcl2.2
    cases t with
    | nil =>
      cases hgl : l.getLast? with
      | none => exact absurd (List.getLast?_eq_none_iff.mp hgl) hlne
      | some c =>
        refine ⟨c, by simpa [joinNL] using hgl, ?_⟩
        intro hcn
        rw [hcn] at hgl
        exact hlnl (List.mem_of_mem_getLast? hgl)
    | cons l2 t2 =>
      obtain ⟨c, hc, hcne⟩ := ih (fun x hx => hclean x (by simp [hx])) (by simp)
      refine ⟨c, ?_, hcne⟩
      have hjoin : joinNL (l :: l2 :: t2) = l ++ nlCh :: joinNL (l2 :: t2) := rfl
      rw [hjoin, List.getLast?_append]
      have hx : (nlCh :: joinNL (l2 :: t2)).getLast? = some c := by
        have hne2 : joinNL (l2 :: t2) ≠ [] := by
          intro hz
          rw [hz] at hc
          simp at hc
        have : (nlCh :: joinNL (l2 :: t2)) = [nlCh] ++ joinNL (l2 :: t2) := rfl
        rw [this, List.getLast?_append, hc]
        rfl
      rw [hx]
      rfl

theorem endsOneNl_append (s : List Char)
    (h : ∀ c, s.getLast? = some c → c ≠ nlCh) :
    endsOneNl (s ++ [nlCh]) = true := by
  have hrev : (s ++ [nlCh]).reverse = nlCh :: s.reverse := by simp
  unfold endsOneNl
  rw [hrev]
  cases hs : s.reverse with
  | nil => decide
  | cons d dr =>
    have hd : s.getLast? = some d := by
      rw [← List.head?_reverse, hs]
      rfl
    have hdn : d ≠ nlCh := h d hd
    simp [hdn]

/-- C5: for a non-empty hunk list led by the file header, the reassembled
patch is exactly the spec-side line sequence (header lines without
`+++`/`---`, the `---`/`+++` lines inserted once immediately before the first
`Change`-kind hunk, every hunk's lines in order) joined by newlines, and
under the scanner invariant (each line non-empty and newline-free) it ends in
exactly one trailing newline. -/
theorem reassemble_structure (header : Hunk) (rest : List Hunk)
    (hclean : ∀ l ∈ reassembleLines (header :: rest), cleanLine l = true) :
    reassemblePatch (header :: rest)
        = joinNL (reassembleSpecLines header rest) ++ [nlCh]
      ∧ endsOneNl (reassemblePatch (header :: rest)) = true := by
  constructor
  · rw [reassemblePatch, reassembleLines_spec]
  · rw [reassemblePatch]
    apply endsOneNl_append
    intro c hc
    by_cases hl : reassembleLines (header :: rest) = []
    · rw [hl] at hc
      simp [joinNL] at hc
    · obtain ⟨c2, hc2, hcne⟩ := joinNL_getLast _ hclean hl
      rw [hc] at hc2
      have hcc : c = c2 := by simpa using hc2
      rw [hcc]
      exact hcne

theorem reassemble_structure_witness :
    reassemblePatch [smallHeader, smallHunk]
        = joinNL (reassembleSpecLines smallHeader [smallHunk]) ++ [nlCh]
      ∧ endsOneNl (reassemblePatch [smallHeader, smallHunk]) = true :=
  reassemble_structure smallHeader [smallHunk] (by decide)

/-- C9 (counterexample): on a hunk with 13 change blocks the per-hunk split
loop executes 11 passes (round counter 11, each pass splitting once: 1 hunk
grows to 12), exceeding the claimed bound of 10 rounds. -/
theorem auto_split_eleven_rounds :
    (splitLoop 11 [deepHunk] 0).2 = 11
      ∧ (splitLoop 11 [deepHunk] 0).1.length = 12
      ∧ autoSplitAllHunks [deepHunk] = (splitLoop 11 [deepHunk] 0).1 := by
  decide

/-- C9 (amended): the per-hunk loop of `autoSplitAllHunks` terminates — any
fuel of at least `11 - rounds` computes the same result, realizing the
unbounded Go loop — performing at most 11 split rounds (the loop breaks only
after the round counter exceeds the fixed ceiling of 10), and it stops right
after the first pass that produces no split. -/
theorem auto_split_rounds_bounded :
    (∀ (current : List Hunk) (rounds fuel fuel2 : Nat), rounds ≤ 10 →
        11 - rounds ≤ fuel → 11 - rounds ≤ fuel2 →
        splitLoop fuel current rounds = splitLoop fuel2 current rounds)
      ∧ (∀ current : List Hunk, (splitLoop 11 current 0).2 ≤ 11)
      ∧ (∀ current : List Hunk, (onePass current).2 = false →
          splitLoop 11 current 0 = ((onePass current).1, 1)) := by
  have hfuel : ∀ (fuel : Nat) (current : List Hunk) (rounds fuel2 : Nat), rounds ≤ 10 →
      11 - rounds ≤ fuel → 11 - rounds ≤ fuel2 →
      splitLoop fuel current rounds = splitLoop fuel2 current rounds := by
    intro fuel
    induction fuel with
    | zero => intro current rounds fuel2 hr hf _; omega
    | succ f ih =>
      intro current rounds fuel2 hr hf hf2
      cases fuel2 with
      | zero => omega
      | succ f2 =>
        rw [splitLoop, splitLoop]
        by_cases hstop : (!(onePass current).2 || decide (rounds + 1 > 10)) = true
        · simp only [hstop, if_true]
        · simp only [hstop, if_false]
          have hr1 : rounds + 1 ≤ 10 := by
            by_contra hgt
            apply hstop
            simp
            omega
          exact ih (onePass current).1 (rounds + 1) f2 hr1 (by omega) (by omega)
  have hle : ∀ (fuel : Nat) (current : List Hunk) (rounds : Nat), rounds ≤ 10 →
      (splitLoop fuel current rounds).2 ≤ 11 := by
    intro fuel
    induction fuel with
    | zero => intro current rounds hr; simpa [splitLoop] using by omega
    | succ f ih =>
      intro current rounds hr
      rw [splitLoop]
      by_cases hstop : (!(onePass current).2 || decide (rounds + 1 > 10)) = true
      · simp only [hstop, if_true]
        omega
      · simp only [hstop, if_false]
        have hr1 : rounds + 1 ≤ 10 := by
          by_contra hgt
          apply hstop
          simp
          omega
        exact ih (onePass current).1 (rounds + 1) hr1
  refine ⟨fun current rounds fuel fuel2 => hfuel fuel current rounds fuel2, ?_, ?_⟩
  · intro current
    exact hle 11 current 0 (by omega)
  · intro current hno
    rw [splitLoop]
    simp [hno]

theorem auto_split_rounds_witness :
    splitLoop 12 [smallHunk] 0 = splitLoop 11 [smallHunk] 0
      ∧ (splitLoop 11 [smallHunk] 0).2 ≤ 11 :=
  ⟨auto_split_rounds_bounded.1 [smallHunk] 0 12 11 (by decide) (by decide) (by decide),
    auto_split_rounds_bounded.2.1 [smallHunk]⟩

theorem joinWith_mem (sep c : Char) (opts : List (List Char)) (o : List Char)
    (ho : o ∈ opts) (hc : c ∈ o) : c ∈ joinWith sep opts := by
  induction opts with
  | nil => cases ho
  | cons x t ih =>
    cases t with
    | nil =>
      have hx : o = x := by simpa using ho
      rw [hx] at hc
      simpa [joinWith] using hc
    | cons y t2 =>
      rcases List.mem_cons.mp ho with h1 | h2
      · rw [h1] at hc
        exact List.mem_append_left _ hc
      · exact List.mem_append_right _ (List.mem_cons_of_mem _ (ih h2))

theorem mem_option_string (c : Char) (opts : List (List Char)) (hmem : [c] ∈ opts) :
    c ∈ (if opts.length > 0 then ',' :: joinWith ',' opts else []) := by
  rw [if_pos (List.length_pos.mpr (List.ne_nil_of_mem hmem))]
  exact List.mem_cons_of_mem _ (joinWith_mem ',' c opts [c] hmem (by simp))

/-- C10: command dispatch lowercases the first input character (after the
raw checks for `S` and `A`), so uppercase `Y`, `N`, `Q`, `D`, `E`, `J`, `K`
produce exactly the transition of their lowercase forms; in particular `J`
and `K`, advertised in the option string separately from `j` and `k`, perform
the identical skip-to-next/previous-undecided navigation. -/
theorem dispatch_case_insensitive (hunks : List Hunk) (ix : Nat) (c : Char)
    (rest : List Char)
    (hc : c ∈ (['Y', 'N', 'Q', 'D', 'E', 'J', 'K'] : List Char)) :
    patchStep hunks ix (c :: rest) = patchStep hunks ix (toLowerAscii c :: rest)
      ∧ patchStep hunks ix ('J' :: rest) = StepOutcome.cont hunks (navNext hunks ix)
      ∧ patchStep hunks ix ('K' :: rest) = StepOutcome.cont hunks (navPrev hunks ix)
      ∧ (0 < ix → 'K' ∈ buildOtherOptions hunks ix)
      ∧ (ix < hunks.length - 1 → 'J' ∈ buildOtherOptions hunks ix) := by
  refine ⟨?_, rfl, rfl, ?_, ?_⟩
  · fin_cases hc <;> rfl
  · intro hix
    simp only [buildOtherOptions]
    apply mem_option_string
    simp [hix]
  · intro hix
    simp only [buildOtherOptions]
    apply mem_option_string
    simp [hix]

theorem dispatch_case_insensitive_witness :
    patchStep [smallHunk, smallHunk, smallHunk] 1 ['Y']
        = patchStep [smallHunk, smallHunk, smallHunk] 1 [toLowerAscii 'Y']
      ∧ patchStep [smallHunk, smallHunk, smallHunk] 1 ['J']
          = StepOutcome.cont [smallHunk, smallHunk, smallHunk]
              (navNext [smallHunk, smallHunk, smallHunk] 1)
      ∧ patchStep [smallHunk, smallHunk, smallHunk] 1 ['K']
          = StepOutcome.cont [smallHunk, smallHunk, smallHunk]
              (navPrev [smallHunk, smallHunk, smallHunk] 1)
      ∧ (0 < 1 → 'K' ∈ buildOtherOptions [smallHunk, smallHunk, smallHunk] 1)
      ∧ (1 < [smallHunk, smallHunk, smallHunk].length - 1 →
          'J' ∈ buildOtherOptions [smallHunk, smallHunk, smallHunk] 1) :=
  dispatch_case_insensitive [smallHunk, smallHunk, smallHunk] 1 'Y' [] (by decide)

/-- C2: the claim fails as a code bug: the condition guarding the `G` branch
inside `case 'g'` is true for every input whose first letter is `g` or `G`
(`ToUpper` of the bare input `g` is the string `G`), so the plain `g` command
is routed to the global-filter prompt and the goto-number branch is dead
code, while the goto code itself (`gotoHunkNumber`) does implement the
claimed in-range/out-of-range behavior. -/
theorem goto_cmd_shadowed :
    isGlobalFilterInput ['g'] = true
      ∧ isGlobalFilterInput ['G'] = true
      ∧ isGlobalFilterInput ['g', '3'] = true
      ∧ patchStep [smallHunk, smallHunk] 0 ['g'] = StepOutcome.filterCmd
      ∧ gotoHunkNumber 2 0 3 = (1, true)
      ∧ gotoHunkNumber 7 0 3 = (0, false) := by
  decide
